import Mathlib

/-!
Verification of the ilBuso/HashMap repository: a fixed-capacity,
open-addressing hash map with linear probing (src/hashmap/hashmap.c).

Embedding conventions:
* A key pointer together with its `key_size` is modelled as the byte
  sequence it denotes, a `List Nat` of values below 256.
* A table slot (`HashMap_Entry`) whose `key.key` pointer is `NULL` is
  modelled as `none`; an occupied slot stores the owned copy of the key
  bytes together with the value reference.
* The C probe loops (`while (table[index].key.key != NULL)`) have no
  structural termination measure, so they are modelled with explicit
  fuel: a result `none` means the loop did not stop within the given
  number of slot inspections.  The top-level operations run the loop
  with fuel `capacity`: since the loop state is just the index, which
  cycles with period `capacity`, a loop that has not stopped after
  `capacity` inspections never stops.
* `memcmp(a, b, key_size) == 0` is modelled as equality of the first
  `key_size` bytes; `memcpy` of `key_size` bytes as `List.take`.
* Unsigned 32-bit wraparound arithmetic is modelled on `Nat` with an
  explicit `% 2 ^ 32`.
-/

set_option autoImplicit false

namespace HashMapC

/-- A slot of the table: `none` models `key.key == NULL`, `some (k, v)`
models an occupied entry holding the owned key bytes `k` and the value
reference `v`. -/
abbrev Slot (α : Type) := Option (List Nat × α)

/-- The `HashMap` struct of hashmap.h: the slot array, its fixed
capacity, and the current number of entries.  The embedded function
pointers of the C struct always point to the fixed operations below, so
they are not part of the state. -/
structure HashMap (α : Type) where
  table : List (Slot α)
  capacity : Nat
  size : Nat
deriving DecidableEq, Repr

variable {α : Type}

/-- `fnv1a` of hashmap.c: FNV-1a over the byte sequence, offset basis
2166136261, prime 16777619, 32-bit wraparound on the multiply (the XOR
of a 32-bit accumulator with a byte needs no reduction). -/
def fnv1a (key : List Nat) : Nat :=
  key.foldl (fun hash b => ((hash ^^^ b) * 16777619) % 2 ^ 32) 2166136261

/-- `hash_key` of hashmap.c: reads `key_size` bytes from the key pointer
and hashes them with `fnv1a`. -/
def hash_key (key : List Nat) (key_size : Nat) : Nat :=
  fnv1a (key.take key_size)

/-- `key_equals` of hashmap.c: `memcmp(a, b, key_size) == 0`, i.e.
byte-exact comparison of the first `key_size` bytes. -/
def key_equals (a b : List Nat) (key_size : Nat) : Bool :=
  a.take key_size == b.take key_size

/-- `hashmap_init` of hashmap.c: capacity slots, every `key.key` set to
`NULL`, size 0. -/
def hashmap_init (α : Type) (capacity : Nat) : HashMap α :=
  { table := List.replicate capacity none, capacity := capacity, size := 0 }

/-- The probe loop of `insert`: while the slot is occupied, update in
place on a key match, otherwise advance to `(index + 1) % capacity`; on
an empty slot store a copy of the key bytes, the value, and increment
`size`.  `none` means the loop did not stop within `fuel` inspections. -/
def probeInsert (m : HashMap α) (key : List Nat) (key_size : Nat) (value : α) :
    Nat → Nat → Option (HashMap α × Bool)
  | 0, _ => none
  | fuel + 1, index =>
    match m.table.getD index none with
    | some (k, _) =>
      if key_equals k key key_size then
        some ({ m with table := m.table.set index (some (k, value)) }, true)
      else
        probeInsert m key key_size value fuel ((index + 1) % m.capacity)
    | none =>
      some ({ m with
              table := m.table.set index (some (key.take key_size, value)),
              size := m.size + 1 }, true)

/-- `insert` of hashmap.c.  The full-table check comes first and prints
"[ERROR] HashMap is full" without mutating; this outcome is modelled as
the Boolean `false`.  A successful insert or in-place update is `true`. -/
def insert (m : HashMap α) (key : List Nat) (key_size : Nat) (value : α) :
    Option (HashMap α × Bool) :=
  if m.size = m.capacity then some (m, false)
  else probeInsert m key key_size value m.capacity (hash_key key key_size % m.capacity)

/-- The probe loop of `find`: while the slot is occupied, return the
value on a key match, otherwise advance; an empty slot returns `NULL`
(modelled `none` in the inner `Option`).  The outer `none` means the
loop did not stop within `fuel` inspections. -/
def probeFind (m : HashMap α) (key : List Nat) (key_size : Nat) :
    Nat → Nat → Option (HashMap α × Option α)
  | 0, _ => none
  | fuel + 1, index =>
    match m.table.getD index none with
    | some (k, v) =>
      if key_equals k key key_size then some (m, some v)
      else probeFind m key key_size fuel ((index + 1) % m.capacity)
    | none => some (m, none)

/-- `find` of hashmap.c, probing from `hash_key(key) % capacity`.  The
returned map is the post-state of the table (the C function takes the
map by pointer and could in principle write through it). -/
def find (m : HashMap α) (key : List Nat) (key_size : Nat) :
    Option (HashMap α × Option α) :=
  probeFind m key key_size m.capacity (hash_key key key_size % m.capacity)

/-- The probe loop of `delete_entry`: on a key match free the key, reset
the slot to `NULL` and decrement `size`; on an empty slot print
"[ERROR] Key not found" (modelled as the Boolean `false`). -/
def probeDelete (m : HashMap α) (key : List Nat) (key_size : Nat) :
    Nat → Nat → Option (HashMap α × Bool)
  | 0, _ => none
  | fuel + 1, index =>
    match m.table.getD index none with
    | some (k, _) =>
      if key_equals k key key_size then
        some ({ m with table := m.table.set index none, size := m.size - 1 }, true)
      else
        probeDelete m key key_size fuel ((index + 1) % m.capacity)
    | none => some (m, false)

/-- `delete_entry` of hashmap.c, probing from `hash_key(key) % capacity`. -/
def delete_entry (m : HashMap α) (key : List Nat) (key_size : Nat) :
    Option (HashMap α × Bool) :=
  probeDelete m key key_size m.capacity (hash_key key key_size % m.capacity)

/-- Number of occupied slots of a table. -/
def occupiedCount (t : List (Slot α)) : Nat :=
  t.countP (fun s => s.isSome)

/-- Whether a slot is occupied by a key equal (in the sense of
`key_equals`) to the given key. -/
def slotMatches (s : Slot α) (key : List Nat) (key_size : Nat) : Bool :=
  match s with
  | none => false
  | some (k, _) => key_equals k key key_size

/-- The `find` probe loop starting at `index` never stops, however much
fuel it is given: the C `while` loop runs forever. -/
def probeFindDiverges (m : HashMap α) (key : List Nat) (key_size : Nat)
    (index : Nat) : Prop :=
  ∀ fuel, probeFind m key key_size fuel index = none

/-- States reachable from `hashmap_init capacity` by the map's own
operations (only terminating runs produce a successor state). -/
inductive Reachable (α : Type) (cap : Nat) : HashMap α → Prop
  | init : Reachable α cap (hashmap_init α cap)
  | insert_step (m : HashMap α) (key : List Nat) (key_size : Nat) (value : α)
      (m2 : HashMap α) (b : Bool) :
      Reachable α cap m → insert m key key_size value = some (m2, b) →
      Reachable α cap m2
  | find_step (m : HashMap α) (key : List Nat) (key_size : Nat)
      (m2 : HashMap α) (r : Option α) :
      Reachable α cap m → find m key key_size = some (m2, r) →
      Reachable α cap m2
  | delete_step (m : HashMap α) (key : List Nat) (key_size : Nat)
      (m2 : HashMap α) (b : Bool) :
      Reachable α cap m → delete_entry m key key_size = some (m2, b) →
      Reachable α cap m2

example : insert (hashmap_init Nat 2) [7] 1 5 =
    some (⟨[some ([7], 5), none], 2, 1⟩, true) := by decide

example : find (⟨[some ([7], 5), none], 2, 1⟩ : HashMap Nat) [7] 1 =
    some (⟨[some ([7], 5), none], 2, 1⟩, some 5) := by decide

/-! ### List helper lemmas -/

theorem getD_set_self {β : Type} (t : List β) (i : Nat) (a d : β)
    (h : i < t.length) : (t.set i a).getD i d = a := by
  induction t generalizing i with
  | nil => simp at h
  | cons x t ih =>
    cases i with
    | zero => rfl
    | succ i => exact ih i (Nat.lt_of_succ_lt_succ h)

theorem getD_set_ne {β : Type} (t : List β) {i j : Nat} (a d : β)
    (h : j ≠ i) : (t.set i a).getD j d = t.getD j d := by
  induction t generalizing i j with
  | nil => rfl
  | cons x t ih =>
    cases i with
    | zero =>
      cases j with
      | zero => exact absurd rfl h
      | succ j => rfl
    | succ i =>
      cases j with
      | zero => rfl
      | succ j => exact ih (fun he => h (congrArg Nat.succ he))

theorem countP_set {β : Type} (p : β → Bool) :
    ∀ (t : List β) (j : Nat) (a d : β), j < t.length →
      (t.set j a).countP p + (if p (t.getD j d) then 1 else 0) =
        t.countP p + (if p a then 1 else 0) := by
  intro t
  induction t with
  | nil => intro j a d h; simp at h
  | cons x t ih =>
    intro j a d h
    cases j with
    | zero =>
      simp only [List.set, List.getD_cons_zero, List.countP_cons]
      omega
    | succ j =>
      have hj : j < t.length := Nat.lt_of_succ_lt_succ h
      simp only [List.set, List.getD_cons_succ, List.countP_cons]
      have := ih j a d hj
      omega

theorem occupiedCount_set_occupied {t : List (Slot α)} {j : Nat}
    {k : List Nat} {v : α} (e : List Nat × α)
    (hj : j < t.length) (hs : t.getD j none = some e) :
    occupiedCount (t.set j (some (k, v))) = occupiedCount t := by
  have h := countP_set (fun s : Slot α => s.isSome) t j (some (k, v)) none hj
  rw [hs] at h
  simpa [occupiedCount] using h

theorem occupiedCount_set_fresh {t : List (Slot α)} {j : Nat}
    {k : List Nat} {v : α}
    (hj : j < t.length) (hs : t.getD j none = none) :
    occupiedCount (t.set j (some (k, v))) = occupiedCount t + 1 := by
  have h := countP_set (fun s : Slot α => s.isSome) t j (some (k, v)) none hj
  rw [hs] at h
  simpa [occupiedCount] using h

theorem occupiedCount_set_cleared {t : List (Slot α)} {j : Nat}
    (e : List Nat × α)
    (hj : j < t.length) (hs : t.getD j none = some e) :
    occupiedCount (t.set j none) + 1 = occupiedCount t := by
  have h := countP_set (fun s : Slot α => s.isSome) t j none none hj
  rw [hs] at h
  simpa [occupiedCount] using h

theorem occupiedCount_replicate_none (n : Nat) :
    occupiedCount (List.replicate n none : List (Slot α)) = 0 := by
  induction n with
  | zero => rfl
  | succ n ih => simp [occupiedCount, List.replicate, List.countP_cons] at ih ⊢

theorem occupiedCount_le_length (t : List (Slot α)) :
    occupiedCount t ≤ t.length :=
  List.countP_le_length _

theorem exists_empty_slot_of_occ_lt :
    ∀ t : List (Slot α), occupiedCount t < t.length →
      ∃ j, j < t.length ∧ t.getD j none = none := by
  intro t
  induction t with
  | nil => intro h; simp at h
  | cons s t ih =>
    intro h
    cases s with
    | none => exact ⟨0, Nat.succ_pos _, rfl⟩
    | some e =>
      have h' : occupiedCount t < t.length := by
        simp only [occupiedCount, List.countP_cons, List.length_cons] at h ⊢
        simpa using Nat.lt_of_succ_lt_succ (by simpa using h)
      obtain ⟨j, hj, hs⟩ := ih h'
      exact ⟨j + 1, Nat.succ_lt_succ hj, hs⟩

/-! ### Probe-index arithmetic -/

theorem exists_probe_offset {start j cap : Nat} (hs : start < cap) (hj : j < cap) :
    ∃ t, t < cap ∧ (start + t) % cap = j := by
  by_cases hle : start ≤ j
  · exact ⟨j - start, by omega, by rw [Nat.add_sub_cancel' hle, Nat.mod_eq_of_lt hj]⟩
  · refine ⟨cap + j - start, by omega, ?_⟩
    have h1 : start + (cap + j - start) = cap + j := by omega
    rw [h1, Nat.add_mod_left, Nat.mod_eq_of_lt hj]

theorem add_mod_ne_self {cap index s : Nat}
    (h1 : 0 < s) (h2 : s < cap) : (index + s) % cap ≠ index := by
  intro h
  have hd := Nat.div_add_mod (index + s) cap
  rw [h] at hd
  rcases Nat.eq_zero_or_pos ((index + s) / cap) with h0 | hp
  · rw [h0, Nat.mul_zero] at hd; omega
  · have : cap ≤ cap * ((index + s) / cap) := Nat.le_mul_of_pos_right cap hp
    omega

/-! ### The find loop is read-only -/

theorem probeFind_post_eq (m : HashMap α) (key : List Nat) (ks : Nat) :
    ∀ fuel index m2 r, probeFind m key ks fuel index = some (m2, r) → m2 = m := by
  intro fuel
  induction fuel with
  | zero => intro index m2 r h; simp [probeFind] at h
  | succ f ih =>
    intro index m2 r h
    rw [probeFind] at h
    cases hslot : m.table.getD index none with
    | none =>
      rw [hslot] at h
      simp only [Option.some.injEq, Prod.mk.injEq] at h
      exact h.1.symm
    | some e =>
      obtain ⟨k, v⟩ := e
      rw [hslot] at h
      cases hk : key_equals k key ks with
      | true =>
        simp only [hk, if_true] at h
        simp only [Option.some.injEq, Prod.mk.injEq] at h
        exact h.1.symm
      | false =>
        simp only [hk, Bool.false_eq_true, if_false] at h
        exact ih _ _ _ h

/-! ### Termination of the probe loops when a stopping slot is in range -/

theorem probeFind_stops (m : HashMap α) (key : List Nat) (ks : Nat) :
    ∀ fuel index, index < m.capacity →
      (∃ t, t < fuel ∧ m.table.getD ((index + t) % m.capacity) none = none) →
      (probeFind m key ks fuel index).isSome := by
  intro fuel
  induction fuel with
  | zero =>
    intro index _ h
    obtain ⟨t, ht, _⟩ := h
    exact absurd ht (Nat.not_lt_zero t)
  | succ f ih =>
    intro index hidx h
    rw [probeFind]
    cases hslot : m.table.getD index none with
    | none => simp
    | some e =>
      obtain ⟨k, v⟩ := e
      simp only
      cases hk : key_equals k key ks with
      | true => simp
      | false =>
        simp only [hk, Bool.false_eq_true, if_false]
        have hcap : 0 < m.capacity := Nat.lt_of_le_of_lt (Nat.zero_le index) hidx
        obtain ⟨t, ht, hnone⟩ := h
        have ht0 : t ≠ 0 := by
          intro h0
          rw [h0, Nat.add_zero, Nat.mod_eq_of_lt hidx] at hnone
          rw [hnone] at hslot
          exact Option.noConfusion hslot
        refine ih ((index + 1) % m.capacity) (Nat.mod_lt _ hcap) ⟨t - 1, by omega, ?_⟩
        rw [Nat.mod_add_mod]
        have : index + 1 + (t - 1) = index + t := by omega
        rw [this]
        exact hnone

theorem probeInsert_stops (m : HashMap α) (key : List Nat) (ks : Nat) (v : α) :
    ∀ fuel index, index < m.capacity →
      (∃ t, t < fuel ∧ m.table.getD ((index + t) % m.capacity) none = none) →
      (probeInsert m key ks v fuel index).isSome := by
  intro fuel
  induction fuel with
  | zero =>
    intro index _ h
    obtain ⟨t, ht, _⟩ := h
    exact absurd ht (Nat.not_lt_zero t)
  | succ f ih =>
    intro index hidx h
    rw [probeInsert]
    cases hslot : m.table.getD index none with
    | none => simp
    | some e =>
      obtain ⟨k, v0⟩ := e
      simp only
      cases hk : key_equals k key ks with
      | true => simp
      | false =>
        simp only [hk, Bool.false_eq_true, if_false]
        have hcap : 0 < m.capacity := Nat.lt_of_le_of_lt (Nat.zero_le index) hidx
        obtain ⟨t, ht, hnone⟩ := h
        have ht0 : t ≠ 0 := by
          intro h0
          rw [h0, Nat.add_zero, Nat.mod_eq_of_lt hidx] at hnone
          rw [hnone] at hslot
          exact Option.noConfusion hslot
        refine ih ((index + 1) % m.capacity) (Nat.mod_lt _ hcap) ⟨t - 1, by omega, ?_⟩
        rw [Nat.mod_add_mod]
        have h1 : index + 1 + (t - 1) = index + t := by omega
        rw [h1]
        exact hnone

/-! ### Probing for an absent key -/

theorem probeFind_absent (m : HashMap α) (key : List Nat) (ks : Nat)
    (habs : ∀ j, j < m.capacity → slotMatches (m.table.getD j none) key ks = false) :
    ∀ fuel index, index < m.capacity →
      (∃ t, t < fuel ∧ m.table.getD ((index + t) % m.capacity) none = none) →
      probeFind m key ks fuel index = some (m, none) := by
  intro fuel
  induction fuel with
  | zero =>
    intro index _ h
    obtain ⟨t, ht, _⟩ := h
    exact absurd ht (Nat.not_lt_zero t)
  | succ f ih =>
    intro index hidx h
    rw [probeFind]
    cases hslot : m.table.getD index none with
    | none => simp
    | some e =>
      obtain ⟨k, v0⟩ := e
      have hk : key_equals k key ks = false := by
        have := habs index hidx
        rw [hslot] at this
        exact this
      simp only [hk, Bool.false_eq_true, if_false]
      have hcap : 0 < m.capacity := Nat.lt_of_le_of_lt (Nat.zero_le index) hidx
      obtain ⟨t, ht, hnone⟩ := h
      have ht0 : t ≠ 0 := by
        intro h0
        rw [h0, Nat.add_zero, Nat.mod_eq_of_lt hidx] at hnone
        rw [hnone] at hslot
        exact Option.noConfusion hslot
      refine ih ((index + 1) % m.capacity) (Nat.mod_lt _ hcap) ⟨t - 1, by omega, ?_⟩
      rw [Nat.mod_add_mod]
      have h1 : index + 1 + (t - 1) = index + t := by omega
      rw [h1]
      exact hnone

theorem probeDelete_absent (m : HashMap α) (key : List Nat) (ks : Nat)
    (habs : ∀ j, j < m.capacity → slotMatches (m.table.getD j none) key ks = false) :
    ∀ fuel index, index < m.capacity →
      (∃ t, t < fuel ∧ m.table.getD ((index + t) % m.capacity) none = none) →
      probeDelete m key ks fuel index = some (m, false) := by
  intro fuel
  induction fuel with
  | zero =>
    intro index _ h
    obtain ⟨t, ht, _⟩ := h
    exact absurd ht (Nat.not_lt_zero t)
  | succ f ih =>
    intro index hidx h
    rw [probeDelete]
    cases hslot : m.table.getD index none with
    | none => simp
    | some e =>
      obtain ⟨k, v0⟩ := e
      have hk : key_equals k key ks = false := by
        have := habs index hidx
        rw [hslot] at this
        exact this
      simp only [hk, Bool.false_eq_true, if_false]
      have hcap : 0 < m.capacity := Nat.lt_of_le_of_lt (Nat.zero_le index) hidx
      obtain ⟨t, ht, hnone⟩ := h
      have ht0 : t ≠ 0 := by
        intro h0
        rw [h0, Nat.add_zero, Nat.mod_eq_of_lt hidx] at hnone
        rw [hnone] at hslot
        exact Option.noConfusion hslot
      refine ih ((index + 1) % m.capacity) (Nat.mod_lt _ hcap) ⟨t - 1, by omega, ?_⟩
      rw [Nat.mod_add_mod]
      have h1 : index + 1 + (t - 1) = index + t := by omega
      rw [h1]
      exact hnone

/-! ### What a terminating delete probe does to the state -/

theorem probeDelete_spec (m : HashMap α) (key : List Nat) (ks : Nat)
    (hlen : m.table.length = m.capacity) :
    ∀ fuel index m2 b, index < m.capacity →
      probeDelete m key ks fuel index = some (m2, b) →
      (b = false ∧ m2 = m) ∨
      (b = true ∧ m2.capacity = m.capacity ∧ m2.table.length = m.table.length ∧
        m2.size = m.size - 1 ∧
        occupiedCount m2.table + 1 = occupiedCount m.table) := by
  intro fuel
  induction fuel with
  | zero => intro index m2 b _ h; simp [probeDelete] at h
  | succ f ih =>
    intro index m2 b hidx h
    rw [probeDelete] at h
    cases hslot : m.table.getD index none with
    | none =>
      rw [hslot] at h
      simp only [Option.some.injEq, Prod.mk.injEq] at h
      exact Or.inl ⟨h.2.symm, h.1.symm⟩
    | some e =>
      obtain ⟨k, v0⟩ := e
      rw [hslot] at h
      cases hk : key_equals k key ks with
      | true =>
        simp only [hk, if_true, Option.some.injEq, Prod.mk.injEq] at h
        obtain ⟨hm2, hb⟩ := h
        subst hm2
        exact Or.inr ⟨hb.symm, rfl, List.length_set .., rfl,
          occupiedCount_set_cleared (k, v0) (hlen ▸ hidx) hslot⟩
      | false =>
        simp only [hk, Bool.false_eq_true, if_false] at h
        have hcap : 0 < m.capacity := Nat.lt_of_le_of_lt (Nat.zero_le index) hidx
        exact ih ((index + 1) % m.capacity) m2 b (Nat.mod_lt _ hcap) h

/-! ### What a terminating insert probe does to the state -/

theorem key_equals_take_self (key : List Nat) (ks : Nat) :
    key_equals (key.take ks) key ks = true := by
  simp [key_equals, List.take_take]

theorem probeFind_step (m : HashMap α) (key : List Nat) (ks : Nat)
    (f index : Nat) (k0 : List Nat) (v0 : α)
    (hslot : m.table.getD index none = some (k0, v0))
    (hk : key_equals k0 key ks = false) :
    probeFind m key ks (f + 1) index =
      probeFind m key ks f ((index + 1) % m.capacity) := by
  rw [probeFind, hslot]
  simp [hk]

/-- Master lemma for a terminating `insert` probe: it reports success,
preserves capacity and table length, leaves every slot outside the probe
window untouched, makes the key findable with the new value, and either
updates in place (`size` and the occupied count unchanged, the key was
findable before) or fills an empty slot (`size` and the occupied count
grow by one, the key was not findable before). -/
theorem probeInsert_spec (m : HashMap α) (key : List Nat) (ks : Nat) (v : α)
    (hlen : m.table.length = m.capacity) :
    ∀ fuel, fuel ≤ m.capacity → ∀ index m2 b, index < m.capacity →
      probeInsert m key ks v fuel index = some (m2, b) →
      b = true ∧ m2.capacity = m.capacity ∧ m2.table.length = m.table.length ∧
      probeFind m2 key ks fuel index = some (m2, some v) ∧
      (∀ j, (∀ t, t < fuel → j ≠ (index + t) % m.capacity) →
        m2.table.getD j none = m.table.getD j none) ∧
      ((m2.size = m.size ∧ occupiedCount m2.table = occupiedCount m.table ∧
          ∃ w, probeFind m key ks fuel index = some (m, some w)) ∨
       (m2.size = m.size + 1 ∧
          occupiedCount m2.table = occupiedCount m.table + 1 ∧
          probeFind m key ks fuel index = some (m, none))) := by
  intro fuel
  induction fuel with
  | zero => intro _ index m2 b _ h; simp [probeInsert] at h
  | succ f ih =>
    intro hfuel index m2 b hidx h
    have hidxlen : index < m.table.length := by rw [hlen]; exact hidx
    rw [probeInsert] at h
    cases hslot : m.table.getD index none with
    | none =>
      rw [hslot] at h
      simp only [Option.some.injEq, Prod.mk.injEq] at h
      obtain ⟨hm2, hb⟩ := h
      subst hm2
      refine ⟨hb.symm, rfl, List.length_set .., ?_, ?_, ?_⟩
      · simp only [probeFind,
          getD_set_self m.table index (some (key.take ks, v)) none hidxlen,
          key_equals_take_self, if_true]
      · intro j hj
        have hji : j ≠ index := by
          have h0 := hj 0 (Nat.succ_pos f)
          rwa [Nat.add_zero, Nat.mod_eq_of_lt hidx] at h0
        exact getD_set_ne m.table _ none hji
      · refine Or.inr ⟨rfl, occupiedCount_set_fresh hidxlen hslot, ?_⟩
        rw [probeFind, hslot]
    | some e =>
      obtain ⟨k0, v0⟩ := e
      rw [hslot] at h
      cases hk : key_equals k0 key ks with
      | true =>
        simp only [hk, if_true, Option.some.injEq, Prod.mk.injEq] at h
        obtain ⟨hm2, hb⟩ := h
        subst hm2
        refine ⟨hb.symm, rfl, List.length_set .., ?_, ?_, ?_⟩
        · simp only [probeFind,
            getD_set_self m.table index (some (k0, v)) none hidxlen, hk, if_true]
        · intro j hj
          have hji : j ≠ index := by
            have h0 := hj 0 (Nat.succ_pos f)
            rwa [Nat.add_zero, Nat.mod_eq_of_lt hidx] at h0
          exact getD_set_ne m.table _ none hji
        · refine Or.inl ⟨rfl, occupiedCount_set_occupied (k0, v0) hidxlen hslot,
            v0, ?_⟩
          rw [probeFind, hslot]
          simp [hk]
      | false =>
        simp only [hk, Bool.false_eq_true, if_false] at h
        have hcap : 0 < m.capacity := Nat.lt_of_le_of_lt (Nat.zero_le index) hidx
        have hidx' : (index + 1) % m.capacity < m.capacity := Nat.mod_lt _ hcap
        obtain ⟨hb, hcap2, hlen2, hfind2, huntouch, hsizes⟩ :=
          ih (Nat.le_of_succ_le hfuel) _ _ _ hidx' h
        have hwindow : ∀ t, t < f →
            ((index + 1) % m.capacity + t) % m.capacity = (index + (t + 1)) % m.capacity := by
          intro t _
          rw [Nat.mod_add_mod]
          have h1 : index + 1 + t = index + (t + 1) := by omega
          rw [h1]
        have hslot2 : m2.table.getD index none = m.table.getD index none := by
          apply huntouch
          intro t ht
          rw [hwindow t ht]
          exact Ne.symm (add_mod_ne_self (Nat.succ_pos t) (by omega))
        refine ⟨hb, hcap2, hlen2, ?_, ?_, ?_⟩
        · have hstep := probeFind_step m2 key ks f index k0 v0
            (by rw [hslot2]; exact hslot) hk
          rw [hstep, hcap2]
          exact hfind2
        · intro j hj
          apply huntouch
          intro t ht
          rw [hwindow t ht]
          exact hj (t + 1) (by omega)
        · have hstep := probeFind_step m key ks f index k0 v0 hslot hk
          rcases hsizes with ⟨h1, h2, w, h3⟩ | ⟨h1, h2, h3⟩
          · exact Or.inl ⟨h1, h2, w, by rw [hstep]; exact h3⟩
          · exact Or.inr ⟨h1, h2, by rw [hstep]; exact h3⟩

/-! ### Claim theorems -/

/-- C3: for every table with `size == capacity` and every key (present
or not) and value, `insert` fails with the capacity error and performs
no mutation: the returned state is the input state unchanged. -/
theorem insert_full_rejects_without_mutation (m : HashMap α) (key : List Nat)
    (ks : Nat) (v : α) (h : m.size = m.capacity) :
    insert m key ks v = some (m, false) := by
  rw [insert, if_pos h]

/-- C3 witness: a table of capacity 2 holding exactly 2 distinct keys
rejects the insert of a third key, unchanged. -/
theorem insert_full_rejects_without_mutation_witness :
    (⟨[some ([1], 5), some ([2], 6)], 2, 2⟩ : HashMap Nat).size =
      (⟨[some ([1], 5), some ([2], 6)], 2, 2⟩ : HashMap Nat).capacity ∧
    insert (⟨[some ([1], 5), some ([2], 6)], 2, 2⟩ : HashMap Nat) [3] 1 7 =
      some (⟨[some ([1], 5), some ([2], 6)], 2, 2⟩, false) :=
  ⟨rfl, insert_full_rejects_without_mutation _ _ _ _ rfl⟩

/-- C10: `find` is read-only for every input: whenever its probe loop
terminates, the post-state of the table equals the pre-state (all slots,
`size` and `capacity` unchanged). -/
theorem find_readonly (m : HashMap α) (key : List Nat) (ks : Nat)
    (m2 : HashMap α) (r : Option α)
    (h : find m key ks = some (m2, r)) : m2 = m := by
  rw [find] at h
  exact probeFind_post_eq m key ks _ _ _ _ h

/-- C10 witness: a concrete successful `find` leaves the table as it
was. -/
theorem find_readonly_witness :
    find (⟨[some ([7], 5), none], 2, 1⟩ : HashMap Nat) [7] 1 =
      some (⟨[some ([7], 5), none], 2, 1⟩, some 5) ∧
    (⟨[some ([7], 5), none], 2, 1⟩ : HashMap Nat) =
      ⟨[some ([7], 5), none], 2, 1⟩ :=
  ⟨by decide, find_readonly ⟨[some ([7], 5), none], 2, 1⟩ [7] 1
    ⟨[some ([7], 5), none], 2, 1⟩ (some 5) (by decide)⟩

/-- C6: the hash of a key is FNV-1a over its byte sequence: basis
2166136261, and one XOR-then-multiply step per byte with unsigned 32-bit
wraparound; the result always fits in 32 bits, and `hash_key` applied to
a key of its true length is exactly `fnv1a` of the byte sequence (so
identical byte sequences hash identically: the hash is a pure function
of the bytes). -/
theorem fnv1a_spec (key : List Nat) (b : Nat) :
    fnv1a [] = 2166136261 ∧
    fnv1a (key ++ [b]) = ((fnv1a key ^^^ b) * 16777619) % 2 ^ 32 ∧
    fnv1a key < 2 ^ 32 ∧
    hash_key key key.length = fnv1a key := by
  refine ⟨rfl, ?_, ?_, ?_⟩
  · simp [fnv1a, List.foldl_append]
  · have hfold : ∀ (l : List Nat) (acc : Nat), acc < 2 ^ 32 →
        l.foldl (fun hash b => ((hash ^^^ b) * 16777619) % 2 ^ 32) acc < 2 ^ 32 := by
      intro l
      induction l with
      | nil => intro acc h; exact h
      | cons x l ih => intro acc _; exact ih _ (Nat.mod_lt _ (by norm_num))
    exact hfold key _ (by norm_num)
  · simp [hash_key, List.take_length]

/-- C4: for all keys and values, on any consistent table that is not
full (`size` counts the occupied slots and is below `capacity`, as in
every state the operations can produce), `insert(k, v)` succeeds and an
immediate `find(k)` returns `v`. -/
theorem insert_find_roundtrip (m : HashMap α) (key : List Nat) (ks : Nat)
    (v : α)
    (hlen : m.table.length = m.capacity)
    (hsize : m.size = occupiedCount m.table)
    (hlt : m.size < m.capacity) :
    ∃ m2, insert m key ks v = some (m2, true) ∧
      find m2 key ks = some (m2, some v) := by
  have hcap : 0 < m.capacity := Nat.lt_of_le_of_lt (Nat.zero_le _) hlt
  have hne : ¬m.size = m.capacity := Nat.ne_of_lt hlt
  have hstart : hash_key key ks % m.capacity < m.capacity := Nat.mod_lt _ hcap
  have hocc : occupiedCount m.table < m.table.length := by
    rw [hlen, ← hsize]; exact hlt
  obtain ⟨j, hjlen, hjnone⟩ := exists_empty_slot_of_occ_lt m.table hocc
  have hjcap : j < m.capacity := hlen ▸ hjlen
  obtain ⟨t, htlt, hteq⟩ := exists_probe_offset hstart hjcap
  have hstop : ∃ t, t < m.capacity ∧
      m.table.getD ((hash_key key ks % m.capacity + t) % m.capacity) none = none :=
    ⟨t, htlt, by rw [hteq]; exact hjnone⟩
  have hsome := probeInsert_stops m key ks v m.capacity _ hstart hstop
  obtain ⟨⟨m2, b⟩, hpi⟩ := Option.isSome_iff_exists.mp hsome
  obtain ⟨hb, hcap2, _, hfind2, _, _⟩ :=
    probeInsert_spec m key ks v hlen m.capacity (Nat.le_refl _) _ _ _ hstart hpi
  subst hb
  refine ⟨m2, ?_, ?_⟩
  · rw [insert, if_neg hne]; exact hpi
  · rw [find, hcap2]; exact hfind2

/-- C4 witness: inserting key byte 1 with value 7 into an empty table of
capacity 3 and finding it again. -/
theorem insert_find_roundtrip_witness :
    (hashmap_init Nat 3).table.length = (hashmap_init Nat 3).capacity ∧
    (hashmap_init Nat 3).size = occupiedCount (hashmap_init Nat 3).table ∧
    (hashmap_init Nat 3).size < (hashmap_init Nat 3).capacity ∧
    ∃ m2, insert (hashmap_init Nat 3) [1] 1 7 = some (m2, true) ∧
      find m2 [1] 1 = some (m2, some 7) :=
  ⟨by decide, by decide, by decide,
    insert_find_roundtrip (hashmap_init Nat 3) [1] 1 7
      (by decide) (by decide) (by decide)⟩

/-- C5 counterexample: on a table of capacity 1, inserting key byte 7
with value 10 succeeds and fills the table; re-inserting the same key
with value 20 is rejected by the unconditional full-table check, `size`
is unchanged, and `find` still returns the old value 10, not the latest
value 20 — refuting the claim that `find` afterwards always returns the
latest value. -/
theorem second_insert_on_full_table_keeps_old_value :
    insert (hashmap_init Nat 1) [7] 1 10 =
      some (⟨[some ([7], 10)], 1, 1⟩, true) ∧
    insert (⟨[some ([7], 10)], 1, 1⟩ : HashMap Nat) [7] 1 20 =
      some (⟨[some ([7], 10)], 1, 1⟩, false) ∧
    find (⟨[some ([7], 10)], 1, 1⟩ : HashMap Nat) [7] 1 =
      some (⟨[some ([7], 10)], 1, 1⟩, some 10) ∧
    decide (find (⟨[some ([7], 10)], 1, 1⟩ : HashMap Nat) [7] 1 =
      some (⟨[some ([7], 10)], 1, 1⟩, some 20)) = false := by
  decide

/-- C5 (amended): provided the table is not full when the second insert
happens, inserting the same key twice leaves `size` unchanged by the
second insert and `find` afterwards returns the latest value. -/
theorem insert_update_in_place_when_not_full (m : HashMap α)
    (key : List Nat) (ks : Nat) (v1 v2 : α) (m1 : HashMap α)
    (hlen : m.table.length = m.capacity)
    (hsize : m.size = occupiedCount m.table)
    (hlt : m.size < m.capacity)
    (hins1 : insert m key ks v1 = some (m1, true))
    (hlt1 : m1.size < m1.capacity) :
    ∃ m2, insert m1 key ks v2 = some (m2, true) ∧ m2.size = m1.size ∧
      find m2 key ks = some (m2, some v2) := by
  have hcap : 0 < m.capacity := Nat.lt_of_le_of_lt (Nat.zero_le _) hlt
  have hne : ¬m.size = m.capacity := Nat.ne_of_lt hlt
  have hstart : hash_key key ks % m.capacity < m.capacity := Nat.mod_lt _ hcap
  rw [insert, if_neg hne] at hins1
  obtain ⟨_, hcap1, hlen1, hfind1, _, hsizes1⟩ :=
    probeInsert_spec m key ks v1 hlen m.capacity (Nat.le_refl _) _ _ _ hstart hins1
  have hsize1 : m1.size = occupiedCount m1.table := by
    rcases hsizes1 with ⟨h1, h2, _⟩ | ⟨h1, h2, _⟩ <;> omega
  have hlen1' : m1.table.length = m1.capacity := by rw [hlen1, hlen, hcap1]
  -- the second insert terminates: m1 still has an empty slot
  have hne1 : ¬m1.size = m1.capacity := Nat.ne_of_lt hlt1
  have hcap1' : 0 < m1.capacity := Nat.lt_of_le_of_lt (Nat.zero_le _) hlt1
  have hstart1 : hash_key key ks % m1.capacity < m1.capacity :=
    Nat.mod_lt _ hcap1'
  have hocc1 : occupiedCount m1.table < m1.table.length := by
    rw [hlen1', ← hsize1]; exact hlt1
  obtain ⟨j, hjlen, hjnone⟩ := exists_empty_slot_of_occ_lt m1.table hocc1
  have hjcap : j < m1.capacity := hlen1' ▸ hjlen
  obtain ⟨t, htlt, hteq⟩ := exists_probe_offset hstart1 hjcap
  have hstop : ∃ t, t < m1.capacity ∧
      m1.table.getD ((hash_key key ks % m1.capacity + t) % m1.capacity) none = none :=
    ⟨t, htlt, by rw [hteq]; exact hjnone⟩
  have hsome := probeInsert_stops m1 key ks v2 m1.capacity _ hstart1 hstop
  obtain ⟨⟨m2, b⟩, hpi⟩ := Option.isSome_iff_exists.mp hsome
  obtain ⟨hb, hcap2, _, hfind2, _, hsizes2⟩ :=
    probeInsert_spec m1 key ks v2 hlen1' m1.capacity (Nat.le_refl _) _ _ _ hstart1 hpi
  subst hb
  -- the probe must have hit the key inserted first, not a fresh slot
  rcases hsizes2 with ⟨hsz, _, _⟩ | ⟨_, _, hnone⟩
  · refine ⟨m2, ?_, hsz, ?_⟩
    · rw [insert, if_neg hne1]; exact hpi
    · rw [find, hcap2]; exact hfind2
  · rw [hcap1] at hnone
    rw [hfind1] at hnone
    simp at hnone

/-- C5 (amended) witness: capacity 2, key byte 1 inserted with value 7
then updated to value 9. -/
theorem insert_update_in_place_when_not_full_witness :
    (hashmap_init Nat 2).table.length = (hashmap_init Nat 2).capacity ∧
    (hashmap_init Nat 2).size = occupiedCount (hashmap_init Nat 2).table ∧
    (hashmap_init Nat 2).size < (hashmap_init Nat 2).capacity ∧
    insert (hashmap_init Nat 2) [1] 1 7 =
      some (⟨[some ([1], 7), none], 2, 1⟩, true) ∧
    (⟨[some ([1], 7), none], 2, 1⟩ : HashMap Nat).size <
      (⟨[some ([1], 7), none], 2, 1⟩ : HashMap Nat).capacity ∧
    ∃ m2, insert (⟨[some ([1], 7), none], 2, 1⟩ : HashMap Nat) [1] 1 9 =
        some (m2, true) ∧
      m2.size = (⟨[some ([1], 7), none], 2, 1⟩ : HashMap Nat).size ∧
      find m2 [1] 1 = some (m2, some 9) :=
  ⟨by decide, by decide, by decide, by decide, by decide,
    insert_update_in_place_when_not_full (hashmap_init Nat 2) [1] 1 7 9
      ⟨[some ([1], 7), none], 2, 1⟩
      (by decide) (by decide) (by decide) (by decide) (by decide)⟩

/-- C7: every state reachable from `init(capacity)` by insert, find and
delete operations keeps `capacity` (and the slot array length) as fixed
at construction, keeps `size` equal to the number of occupied slots, and
hence satisfies `size <= capacity`. -/
theorem reachable_state_invariant (cap : Nat) (m : HashMap α)
    (h : Reachable α cap m) :
    m.capacity = cap ∧ m.table.length = m.capacity ∧
      m.size = occupiedCount m.table ∧ m.size ≤ m.capacity := by
  induction h with
  | init =>
    exact ⟨rfl, by simp [hashmap_init],
      (occupiedCount_replicate_none cap).symm, Nat.zero_le _⟩
  | insert_step m key ks v m2 b _ hins ih =>
    obtain ⟨hcapm, hlenm, hsizem, hlem⟩ := ih
    rw [insert] at hins
    by_cases hfull : m.size = m.capacity
    · rw [if_pos hfull] at hins
      simp only [Option.some.injEq, Prod.mk.injEq] at hins
      rw [← hins.1]
      exact ⟨hcapm, hlenm, hsizem, hlem⟩
    · rw [if_neg hfull] at hins
      have hlt : m.size < m.capacity := Nat.lt_of_le_of_ne hlem hfull
      have hcap0 : 0 < m.capacity := Nat.lt_of_le_of_lt (Nat.zero_le _) hlt
      have hstart : hash_key key ks % m.capacity < m.capacity :=
        Nat.mod_lt _ hcap0
      obtain ⟨_, hcap2, hlen2, _, _, hsz⟩ :=
        probeInsert_spec m key ks v hlenm m.capacity (Nat.le_refl _) _ _ _
          hstart hins
      refine ⟨hcap2.trans hcapm, hlen2.trans (hlenm.trans hcap2.symm), ?_, ?_⟩
      · rcases hsz with ⟨h1, h2, _⟩ | ⟨h1, h2, _⟩ <;> omega
      · rcases hsz with ⟨h1, _, _⟩ | ⟨h1, _, _⟩ <;> omega
  | find_step m key ks m2 r _ hfind ih =>
    rw [find] at hfind
    rw [probeFind_post_eq m key ks _ _ _ _ hfind]
    exact ih
  | delete_step m key ks m2 b _ hdel ih =>
    obtain ⟨hcapm, hlenm, hsizem, hlem⟩ := ih
    rw [delete_entry] at hdel
    rcases Nat.eq_zero_or_pos m.capacity with hc0 | hcpos
    · rw [hc0] at hdel
      simp [probeDelete] at hdel
    · have hstart : hash_key key ks % m.capacity < m.capacity :=
        Nat.mod_lt _ hcpos
      rcases probeDelete_spec m key ks hlenm m.capacity _ _ _ hstart hdel with
        ⟨_, hm2⟩ | ⟨_, hcap2, hlen2, hsz2, hocc2⟩
      · rw [hm2]; exact ⟨hcapm, hlenm, hsizem, hlem⟩
      · refine ⟨hcap2.trans hcapm, hlen2.trans (hlenm.trans hcap2.symm), ?_, ?_⟩
        · omega
        · omega

/-- C7 witness: the invariant at the state reached by one insert into a
fresh table of capacity 2. -/
theorem reachable_state_invariant_witness :
    (⟨[some ([1], 7), none], 2, 1⟩ : HashMap Nat).capacity = 2 ∧
    (⟨[some ([1], 7), none], 2, 1⟩ : HashMap Nat).table.length =
      (⟨[some ([1], 7), none], 2, 1⟩ : HashMap Nat).capacity ∧
    (⟨[some ([1], 7), none], 2, 1⟩ : HashMap Nat).size =
      occupiedCount (⟨[some ([1], 7), none], 2, 1⟩ : HashMap Nat).table ∧
    (⟨[some ([1], 7), none], 2, 1⟩ : HashMap Nat).size ≤
      (⟨[some ([1], 7), none], 2, 1⟩ : HashMap Nat).capacity :=
  reachable_state_invariant 2 ⟨[some ([1], 7), none], 2, 1⟩
    (Reachable.insert_step (hashmap_init Nat 2) [1] 1 7
      ⟨[some ([1], 7), none], 2, 1⟩ true Reachable.init (by decide))

/-- C8: `find` and `delete` on a key that matches no occupied slot, on a
table with an empty slot in range (so the probe sequence terminates),
report NotFound and leave the table completely unchanged. -/
theorem find_delete_absent (m : HashMap α) (key : List Nat) (ks : Nat)
    (habs : ∀ j, j < m.capacity →
      slotMatches (m.table.getD j none) key ks = false)
    (hempty : ∃ j, j < m.capacity ∧ m.table.getD j none = none) :
    find m key ks = some (m, none) ∧
      delete_entry m key ks = some (m, false) := by
  obtain ⟨j, hj, hjnone⟩ := hempty
  have hcap : 0 < m.capacity := Nat.lt_of_le_of_lt (Nat.zero_le _) hj
  have hstart : hash_key key ks % m.capacity < m.capacity := Nat.mod_lt _ hcap
  obtain ⟨t, htlt, hteq⟩ := exists_probe_offset hstart hj
  have hstop : ∃ t, t < m.capacity ∧
      m.table.getD ((hash_key key ks % m.capacity + t) % m.capacity) none = none :=
    ⟨t, htlt, by rw [hteq]; exact hjnone⟩
  constructor
  · rw [find]
    exact probeFind_absent m key ks habs m.capacity _ hstart hstop
  · rw [delete_entry]
    exact probeDelete_absent m key ks habs m.capacity _ hstart hstop

/-- C8 witness: key byte 5 was never inserted into a capacity-2 table
holding only key byte 3; find and delete report NotFound and do not
mutate. -/
theorem find_delete_absent_witness :
    (∀ j, j < (⟨[some ([3], 1), none], 2, 1⟩ : HashMap Nat).capacity →
      slotMatches ((⟨[some ([3], 1), none], 2, 1⟩ : HashMap Nat).table.getD j none)
        [5] 1 = false) ∧
    (∃ j, j < (⟨[some ([3], 1), none], 2, 1⟩ : HashMap Nat).capacity ∧
      (⟨[some ([3], 1), none], 2, 1⟩ : HashMap Nat).table.getD j none = none) ∧
    find (⟨[some ([3], 1), none], 2, 1⟩ : HashMap Nat) [5] 1 =
      some (⟨[some ([3], 1), none], 2, 1⟩, none) ∧
    delete_entry (⟨[some ([3], 1), none], 2, 1⟩ : HashMap Nat) [5] 1 =
      some (⟨[some ([3], 1), none], 2, 1⟩, false) := by
  refine ⟨by decide, ⟨1, by decide, by decide⟩, ?_⟩
  exact find_delete_absent ⟨[some ([3], 1), none], 2, 1⟩ [5] 1
    (by decide) ⟨1, by decide, by decide⟩

/-- C1 (defect): capacity 5; the single-byte keys 3, 4 and 14 all hash
to slot 0, so inserting them in that order builds the collision chain
slots 0, 1, 2; key 14 is findable; deleting key 4 resets slot 1 to
Empty, after which `find` on key 14 stops at the hole and reports
NotFound instead of returning value 3. -/
theorem delete_breaks_probe_chain :
    insert (hashmap_init Nat 5) [3] 1 1 =
      some (⟨[some ([3], 1), none, none, none, none], 5, 1⟩, true) ∧
    insert (⟨[some ([3], 1), none, none, none, none], 5, 1⟩ : HashMap Nat)
        [4] 1 2 =
      some (⟨[some ([3], 1), some ([4], 2), none, none, none], 5, 2⟩, true) ∧
    insert (⟨[some ([3], 1), some ([4], 2), none, none, none], 5, 2⟩ :
        HashMap Nat) [14] 1 3 =
      some (⟨[some ([3], 1), some ([4], 2), some ([14], 3), none, none], 5, 3⟩,
        true) ∧
    find (⟨[some ([3], 1), some ([4], 2), some ([14], 3), none, none], 5, 3⟩ :
        HashMap Nat) [14] 1 =
      some (⟨[some ([3], 1), some ([4], 2), some ([14], 3), none, none], 5, 3⟩,
        some 3) ∧
    delete_entry
        (⟨[some ([3], 1), some ([4], 2), some ([14], 3), none, none], 5, 3⟩ :
          HashMap Nat) [4] 1 =
      some (⟨[some ([3], 1), none, some ([14], 3), none, none], 5, 2⟩, true) ∧
    find (⟨[some ([3], 1), none, some ([14], 3), none, none], 5, 2⟩ :
        HashMap Nat) [14] 1 =
      some (⟨[some ([3], 1), none, some ([14], 3), none, none], 5, 2⟩, none) ∧
    decide (find (⟨[some ([3], 1), none, some ([14], 3), none, none], 5, 2⟩ :
        HashMap Nat) [14] 1 =
      some (⟨[some ([3], 1), none, some ([14], 3), none, none], 5, 2⟩,
        some 3)) = false := by
  decide

/-- C2 (defect): a full table is reachable (capacity 1, one insert), and
on it the `find` probe loop for an absent key never stops, with any
amount of fuel: the C `while` loop runs forever, so `find` (given its
`capacity` worth of fuel) reports divergence rather than a result. -/
theorem find_probe_never_stops_on_full_table :
    insert (hashmap_init Nat 1) [42, 0, 0, 0] 4 10 =
      some (⟨[some ([42, 0, 0, 0], 10)], 1, 1⟩, true) ∧
    probeFindDiverges (⟨[some ([42, 0, 0, 0], 10)], 1, 1⟩ : HashMap Nat)
      [99, 0, 0, 0] 4 0 ∧
    find (⟨[some ([42, 0, 0, 0], 10)], 1, 1⟩ : HashMap Nat) [99, 0, 0, 0] 4 =
      none := by
  refine ⟨by decide, ?_, by decide⟩
  intro fuel
  induction fuel with
  | zero => rfl
  | succ f ih =>
    have hstep := probeFind_step
      (⟨[some ([42, 0, 0, 0], 10)], 1, 1⟩ : HashMap Nat)
      [99, 0, 0, 0] 4 f 0 [42, 0, 0, 0] 10 rfl (by decide)
    rw [hstep]
    exact ih

/-- C9: the demo scenario of main.c with capacity 10: key 42 (little
endian 4-byte int) hashes to slot 5 and key 99 to slot 6; both are
found with their values, and after deleting key 42 it is NotFound while
key 99 is still found with its value. -/
theorem main_scenario :
    insert (hashmap_init Nat 10) [42, 0, 0, 0] 4 10 =
      some (⟨[none, none, none, none, none, some ([42, 0, 0, 0], 10),
        none, none, none, none], 10, 1⟩, true) ∧
    insert (⟨[none, none, none, none, none, some ([42, 0, 0, 0], 10),
        none, none, none, none], 10, 1⟩ : HashMap Nat) [99, 0, 0, 0] 4 20 =
      some (⟨[none, none, none, none, none, some ([42, 0, 0, 0], 10),
        some ([99, 0, 0, 0], 20), none, none, none], 10, 2⟩, true) ∧
    find (⟨[none, none, none, none, none, some ([42, 0, 0, 0], 10),
        some ([99, 0, 0, 0], 20), none, none, none], 10, 2⟩ : HashMap Nat)
        [42, 0, 0, 0] 4 =
      some (⟨[none, none, none, none, none, some ([42, 0, 0, 0], 10),
        some ([99, 0, 0, 0], 20), none, none, none], 10, 2⟩, some 10) ∧
    find (⟨[none, none, none, none, none, some ([42, 0, 0, 0], 10),
        some ([99, 0, 0, 0], 20), none, none, none], 10, 2⟩ : HashMap Nat)
        [99, 0, 0, 0] 4 =
      some (⟨[none, none, none, none, none, some ([42, 0, 0, 0], 10),
        some ([99, 0, 0, 0], 20), none, none, none], 10, 2⟩, some 20) ∧
    delete_entry (⟨[none, none, none, none, none, some ([42, 0, 0, 0], 10),
        some ([99, 0, 0, 0], 20), none, none, none], 10, 2⟩ : HashMap Nat)
        [42, 0, 0, 0] 4 =
      some (⟨[none, none, none, none, none, none,
        some ([99, 0, 0, 0], 20), none, none, none], 10, 1⟩, true) ∧
    find (⟨[none, none, none, none, none, none,
        some ([99, 0, 0, 0], 20), none, none, none], 10, 1⟩ : HashMap Nat)
        [42, 0, 0, 0] 4 =
      some (⟨[none, none, none, none, none, none,
        some ([99, 0, 0, 0], 20), none, none, none], 10, 1⟩, none) ∧
    find (⟨[none, none, none, none, none, none,
        some ([99, 0, 0, 0], 20), none, none, none], 10, 1⟩ : HashMap Nat)
        [99, 0, 0, 0] 4 =
      some (⟨[none, none, none, none, none, none,
        some ([99, 0, 0, 0], 20), none, none, none], 10, 1⟩, some 20) := by
  decide

end HashMapC
